import Mathlib

/-!
Verification of the CodeAnalyzer repository core: the ignore-pattern matcher
(`src/utils/ignore.ts`), the directory scanner (`src/utils/scanner.ts`), and the
bounded file processor (`src/utils/processor.ts`).

All strings are embedded as `List Char` (JS strings, indexed by code unit).
External effects (filesystem reads, timers) are passed in as explicit oracle
parameters; the glob compiler `globToRegExp` from the Deno standard library is
kept abstract as a parameter `compile : List Char → List Char → Bool` giving,
for each normalized pattern, the predicate its compiled regex denotes.
-/

namespace CodeAnalyzer

/-! ## Pattern matcher (`src/utils/ignore.ts`) -/

/-- ASCII/JS whitespace recognized by `String.prototype.trim` (ASCII subset). -/
def isJsSpace (c : Char) : Bool :=
  c = ' ' || c = '\t' || c = '\n' || c = '\r' || c = '\x0b' || c = '\x0c'

/-- `s.trim()`: drop leading and trailing whitespace. -/
def jsTrim (l : List Char) : List Char :=
  ((l.dropWhile isJsSpace).reverse.dropWhile isJsSpace).reverse

/-- `.replace(/\\/g, '/')`: convert windows path separators. -/
def replBackslash (l : List Char) : List Char :=
  l.map (fun c => if c = '\\' then '/' else c)

/-- `.replace(/^\.\/|^\//, '')`: remove one leading `./` or `/`. -/
def stripLeadingDotSlash (l : List Char) : List Char :=
  match l with
  | '.' :: '/' :: rest => rest
  | '/' :: rest => rest
  | _ => l

/-- `.replace(/\/$/, '')`: remove one trailing slash. -/
def stripTrailingSlash (l : List Char) : List Char :=
  match l.reverse with
  | '/' :: rest => rest.reverse
  | _ => l

/-- Result of `IgnorePattern.normalizePattern`. -/
structure NormResult where
  pattern : List Char
  negative : Bool
  deriving Repr, DecidableEq

/-- `IgnorePattern.normalizePattern` (ignore.ts:34-53): strip a leading `!`
(when negation is allowed) recording the negation flag, then trim whitespace,
convert `\` to `/`, strip one leading `./` or `/`, strip one trailing `/`. -/
def normalizePattern (allowNegation : Bool) (p : List Char) : NormResult :=
  let negative := allowNegation && p.head? == some '!'
  let body := if negative then p.tail else p
  { pattern := stripTrailingSlash (stripLeadingDotSlash (replBackslash (jsTrim body)))
    negative := negative }

/-- A compiled ignore rule: the predicate of the compiled glob regex plus the
negation flag (ignore.ts:15-18). -/
structure Rule where
  test : List Char → Bool
  negative : Bool

/-- `IgnorePattern.addPattern` (ignore.ts:55-68): normalize; discard the rule if
the normalized pattern is empty; otherwise append the compiled rule. -/
def addPattern (allowNeg : Bool) (compile : List Char → List Char → Bool)
    (rules : List Rule) (p : List Char) : List Rule :=
  let n := normalizePattern allowNeg p
  if n.pattern.isEmpty then rules
  else rules ++ [⟨compile n.pattern, n.negative⟩]

/-- `IgnorePattern.addPatterns` (ignore.ts:70-72). -/
def addPatterns (allowNeg : Bool) (compile : List Char → List Char → Bool)
    (rules : List Rule) (ps : List (List Char)) : List Rule :=
  ps.foldl (addPattern allowNeg compile) rules

/-- `IgnorePattern.shouldIgnore` (ignore.ts:74-85): normalize the candidate
path, then scan every rule in addition order; each matching rule overwrites the
verdict with the negation of its `negative` flag; initially not ignored. -/
def shouldIgnore (allowNeg : Bool) (rules : List Rule) (path : List Char) : Bool :=
  let np := (normalizePattern allowNeg path).pattern
  rules.foldl (fun ign r => if r.test np then !r.negative else ign) false

/-- Raw (pre-default-merge) options fields consulted by
`IgnorePattern.loadFromFile`; `none` models an absent (`undefined`) field.
`allowNegation` is the merged option actually used by `addPattern`. -/
structure LoadOptions where
  allowNegation : Bool
  useGitignoreRaw : Option Bool
  extraPatternsRaw : Option (List (List Char))

/-- Split a JS string on a separator character, as `String.prototype.split`
with a single-character separator: always returns at least one segment. -/
def splitOnChar (sep : Char) : List Char → List (List Char)
  | [] => [[]]
  | c :: rest =>
    match splitOnChar sep rest with
    | [] => [[c]]
    | seg :: segs => if c = sep then [] :: seg :: segs else (c :: seg) :: segs

/-- Line filtering applied to both ignore files (ignore.ts:101-104, 111-114):
split on newlines, trim each line, keep non-empty lines not starting with `#`. -/
def fileLines (content : List Char) : List (List Char) :=
  ((splitOnChar '\n' content).map jsTrim).filter
    (fun l => !l.isEmpty && l.head? != some '#')

/-- `IgnorePattern.loadFromFile` (ignore.ts:87-125). The two possible file
reads are passed as `Option` contents (`none` models `Deno.readTextFile`
throwing, e.g. the file being absent). Faithful to the source: the extra
patterns are added first; the whole primary-file block, INCLUDING the nested
gitignore block, sits inside one `try` whose `catch` ignores the error, so a
failed primary read skips the gitignore read too; the gitignore block runs only
when the RAW `options.useGitignore` field is truthy (i.e. explicitly `true` —
the code consults `options`, not the default-merged `this.options`). -/
def loadFromFile (compile : List Char → List Char → Bool) (opts : LoadOptions)
    (primary gitignore : Option (List Char)) : List Rule :=
  let rules :=
    match opts.extraPatternsRaw with
    | some ps => addPatterns opts.allowNegation compile [] ps
    | none => []
  match primary with
  | none => rules
  | some content =>
    let rules := addPatterns opts.allowNegation compile rules (fileLines content)
    if opts.useGitignoreRaw = some true then
      match gitignore with
      | none => rules
      | some g => addPatterns opts.allowNegation compile rules (fileLines g)
    else rules

/-! ## Tree scanner (`src/utils/scanner.ts`) — extension filtering -/

/-- ASCII lowercasing, as `String.prototype.toLowerCase` acts on ASCII. -/
def jsToLower (c : Char) : Char :=
  if 'A' ≤ c ∧ c ≤ 'Z' then Char.ofNat (c.toNat + 32) else c

/-- `entry.name.split('.').pop()?.toLowerCase() || ''` (scanner.ts:45, also
ignore.ts:148): lowercase the last `.`-separated segment of the name; the
`|| ''` fallback only fires when that segment is itself empty. -/
def fileExtension (name : List Char) : List Char :=
  match (splitOnChar '.' name).getLast? with
  | none => []
  | some seg =>
    let l := seg.map jsToLower
    if l.isEmpty then [] else l

/-- The scanner's rejection test (scanner.ts:46): with allow-list `exts`, a
file is skipped iff the list is non-empty and the computed extension is not in
it. -/
def extReject (exts : List (List Char)) (name : List Char) : Bool :=
  decide (0 < exts.length) && !(exts.contains (fileExtension name))

/-- The spec's wording of the extension ("substring after the last `.`"):
the maximal dot-free suffix of the name. -/
def afterLastDot (name : List Char) : List Char :=
  (name.reverse.takeWhile (fun c => c ≠ '.')).reverse

/-! ## Bounded file processor (`src/utils/processor.ts`) -/

/-- `ProcessStats` (processor.ts:74-81). Times are abstract tick counts. -/
structure Stats where
  processed : Nat
  failed : Nat
  skipped : Nat
  totalSize : Nat
  startTime : Nat
  endTime : Option Nat
  deriving Repr, DecidableEq

/-- `initStats` (processor.ts:136-144): all counters zero, `startTime` the
current clock reading, no `endTime`. -/
def initStats (t0 : Nat) : Stats :=
  { processed := 0, failed := 0, skipped := 0, totalSize := 0
    startTime := t0, endTime := none }

/-- `this.stats.processed++` (processor.ts:239). -/
def incProcessed (s : Stats) : Stats := { s with processed := s.processed + 1 }

/-- `this.stats.failed++` (processor.ts:260). -/
def incFailed (s : Stats) : Stats := { s with failed := s.failed + 1 }

/-- `this.stats.endTime = Date.now()` in the generator's `finally`
(processor.ts:292). -/
def stampEnd (tEnd : Nat) (s : Stats) : Stats := { s with endTime := some tEnd }

/-- The five `ProcessUpdate.type` tags (processor.ts:104). -/
inductive UpdType where
  | start | progress | complete | error | skip
  deriving Repr, DecidableEq

/-- A lifecycle event as posted by `sendUpdate`: its tag and the file path
(payloads are not needed by the claims under verification). -/
structure Upd where
  type : UpdType
  path : List Char
  deriving Repr, DecidableEq

/-- `FileError` (processor.ts:83-89); the `cause` field (the original thrown
value) is not modelled. -/
structure FileError where
  name : List Char
  message : List Char
  filePath : List Char
  retryCount : Nat
  deriving Repr, DecidableEq

/-- A progress snapshot (processor.ts:91-96). `percentage` is
`bytesRead / totalBytes * 100`, computed at emission time. -/
structure FileProgress where
  bytesRead : Nat
  totalBytes : Nat
  percentage : ℚ
  deriving Repr, DecidableEq

/-- One chunk returned by `file.read(buffer)`: its decoded text, its byte
count, and the `Date.now()` reading observed right after it. -/
structure Chunk where
  data : List Char
  bytes : Nat
  now : Nat

/-- Result of `readFileWithProgress`: the accumulated content and the progress
snapshots emitted along the way. -/
structure ReadOut where
  content : List Char
  progress : List FileProgress

/-- The read loop of `readFileWithProgress` (processor.ts:183-210), on the
success path (abort signal never fired; a fired signal is covered by the
failing-attempt oracle of the retry loop). `size` is `stat.size`; after each
chunk the bytes and text accumulate, and a progress snapshot (with percentage
`bytesRead / size * 100`) is emitted iff at least `interval` ms elapsed since
the last emission. -/
def readLoop (interval size : Nat) :
    List Chunk → List Char → Nat → Nat → ReadOut
  | [], content, _, _ => { content := content, progress := [] }
  | ch :: rest, content, bytesRead, lastProgress =>
    let bytesRead' := bytesRead + ch.bytes
    let content' := content ++ ch.data
    if (interval : Int) ≤ (ch.now : Int) - (lastProgress : Int) then
      let out := readLoop interval size rest content' bytesRead' ch.now
      { out with progress :=
          { bytesRead := bytesRead', totalBytes := size
            percentage := (bytesRead' : ℚ) / (size : ℚ) * 100 } :: out.progress }
    else
      readLoop interval size rest content' bytesRead' lastProgress

/-- `readFileWithProgress` (processor.ts:169-216): empty initial content, zero
bytes read, `lastProgress` initialized to the clock reading at entry. -/
def readFileWithProgress (interval size t0 : Nat) (chunks : List Chunk) : ReadOut :=
  readLoop interval size chunks [] 0 t0

/-- Oracle describing what one attempt of the per-file pipeline does:
`valFail` — `validateFile` throws (absent path, not a file, or too large), so
no events are emitted; `readFail` — validation passes, the `start` event and
`nprog` progress events are emitted, then the read fails (abort/timeout/IO
error); `ok` — validation passes and the read returns `content` after `nprog`
progress events. -/
inductive AttemptSpec where
  | valFail (msg : List Char)
  | readFail (msg : List Char) (nprog : Nat)
  | ok (content : List Char) (nprog : Nat)

/-- Whether the attempt throws. -/
def AttemptSpec.fails : AttemptSpec → Bool
  | .valFail _ => true
  | .readFail _ _ => true
  | .ok _ _ => false

/-- Everything observable about one `processFileWithRetry` call: its return or
thrown error, the events it posted, the backoff delays it awaited, the number
of attempts it made, and the statements it ran against the shared stats
object (the source's only two mutation sites are `processed++` and
`failed++`). -/
structure RetryOut where
  result : Except FileError (List Char)
  events : List Upd
  delays : List Nat
  attempts : Nat
  statUpdates : List (Stats → Stats)

/-- The loop-exit path of `processFileWithRetry` (processor.ts:252-262): build
the `FileError` from the last caught error and the current `retryCount`,
increment `failed`, post the `error` event, throw. -/
def retryFail (path : List Char) (rc : Nat) (lastErr : List Char) : RetryOut :=
  { result := .error
      { name := ['F','i','l','e','P','r','o','c','e','s','s','E','r','r','o','r']
        message := lastErr, filePath := path, retryCount := rc }
    events := [⟨.error, path⟩], delays := [], attempts := 0
    statUpdates := [incFailed] }

/-- The `while (retryCount <= maxRetries)` loop of `processFileWithRetry`
(processor.ts:218-263). `fuel` is a structural bound only: it is always called
with `fuel ≥ maxRetries + 1 - rc`, and when fuel runs out it takes the same
loop-exit path as the `rc > maxRetries` case. On a successful attempt: `start`
event, progress events, `processed++`, `complete` event, return. On a failed
attempt: increment `retryCount`; if still `≤ maxRetries`, await
`retryDelay * retryCount` before the next attempt. -/
def retryLoop (maxRetries retryDelay : Nat) (attempt : Nat → AttemptSpec)
    (path : List Char) : Nat → Nat → List Char → RetryOut
  | 0, rc, lastErr => retryFail path rc lastErr
  | fuel + 1, rc, lastErr =>
    if rc ≤ maxRetries then
      match attempt rc with
      | .ok content n =>
        { result := .ok content
          events := ⟨.start, path⟩ ::
            (List.replicate n ⟨.progress, path⟩ ++ [⟨.complete, path⟩])
          delays := [], attempts := 1, statUpdates := [incProcessed] }
      | .valFail msg =>
        let out := retryLoop maxRetries retryDelay attempt path fuel (rc + 1) msg
        { out with attempts := out.attempts + 1
                   delays :=
                     (if rc + 1 ≤ maxRetries then [retryDelay * (rc + 1)] else [])
                       ++ out.delays }
      | .readFail msg n =>
        let out := retryLoop maxRetries retryDelay attempt path fuel (rc + 1) msg
        { out with attempts := out.attempts + 1
                   events := (⟨.start, path⟩ :: List.replicate n ⟨.progress, path⟩)
                       ++ out.events
                   delays :=
                     (if rc + 1 ≤ maxRetries then [retryDelay * (rc + 1)] else [])
                       ++ out.delays }
    else retryFail path rc lastErr

/-- `'Unknown error'`: the message used when no attempt has recorded an error
(never surfaced, since the loop always runs at least once). -/
def unknownErrMsg : List Char :=
  ['U','n','k','n','o','w','n',' ','e','r','r','o','r']

/-- `processFileWithRetry(path)` (processor.ts:218): the loop entered with
`retryCount = 0` and `lastError = null`. -/
def processFileWithRetry (maxRetries retryDelay : Nat)
    (attemptOf : List Char → Nat → AttemptSpec) (p : List Char) : RetryOut :=
  retryLoop maxRetries retryDelay (attemptOf p) p (maxRetries + 1) 0 unknownErrMsg

/-- The settled value of one in-flight promise. -/
abbrev Task := Except FileError (List Char)

/-- A JS `Map` as an insertion-ordered association list. `Map.prototype.set`
on an existing key updates the value in place, keeping the original insertion
position; on a fresh key it appends. -/
def mapSet (m : List (List Char × Task)) (k : List Char) (v : Task) :
    List (List Char × Task) :=
  if k ∈ m.map Prod.fst then
    m.map (fun e => if e.1 = k then (k, v) else e)
  else m ++ [(k, v)]

/-- Apply a list of mutation statements to the stats object, collecting the
snapshot after each one. -/
def applyUpds (s : Stats) : List (Stats → Stats) → Stats × List Stats
  | [] => (s, [])
  | f :: fs =>
    let s' := f s
    let out := applyUpds s' fs
    (out.1, s' :: out.2)

/-- Everything observable about a `processFiles` run prefix: remaining queue
and in-flight map, the yielded results, posted events, the size of the
in-flight map at every instant it changes, every stats snapshot, and the final
stats. -/
structure FillOut where
  queue : List (List Char)
  inflight : List (List Char × Task)
  events : List Upd
  sizes : List Nat
  statsTr : List Stats
  stats : Stats

/-- The inner refill loop of `processFiles` (processor.ts:272-277): while the
queue is non-empty and fewer than `maxConcurrent` entries are in flight, shift
the next path off the queue and insert its pipeline into the map. Starting a
pipeline runs `processFileWithRetry`, whose events and stats mutations are
recorded here, in start order (one linearization of the source's interleaved
execution; the claims proved below are linearization-independent). -/
def fillLoop (maxConcurrent maxRetries retryDelay : Nat)
    (attemptOf : List Char → Nat → AttemptSpec) :
    List (List Char) → List (List Char × Task) → Stats → FillOut
  | [], m, s =>
    { queue := [], inflight := m, events := [], sizes := [], statsTr := [], stats := s }
  | p :: q, m, s =>
    if m.length < maxConcurrent then
      let r := processFileWithRetry maxRetries retryDelay attemptOf p
      let m' := mapSet m p r.result
      let sTr := applyUpds s r.statUpdates
      let out := fillLoop maxConcurrent maxRetries retryDelay attemptOf q m' sTr.1
      { out with events := r.events ++ out.events
                 sizes := m'.length :: out.sizes
                 statsTr := sTr.2 ++ out.statsTr }
    else
      { queue := p :: q, inflight := m, events := [], sizes := [], statsTr := [], stats := s }

/-- Observables of a whole `processFiles` run. -/
structure RunOut where
  yields : List (List Char × List Char)
  events : List Upd
  sizes : List Nat
  statsTr : List Stats
  stats : Stats

/-- The outer loop of `processFiles` (processor.ts:265-295): while the queue or
the in-flight map is non-empty, refill up to the cap, then await the FIRST map
entry (`[...inProgress.entries()][0]` — the oldest still-in-flight pipeline,
since JS `Map` iterates in insertion order), delete it, and yield its content
on success or swallow its error on failure. The awaited value is the settled
value of that entry's promise, so per-file completion delays are never
observable — the source never races promises. On every exit the `finally`
stamps `endTime` and closes the channel. `fuel` is a structural bound; with
`maxConcurrent ≥ 1` each iteration strictly shrinks `queue.length +
inflight.length`, so `files.length + 1` fuel is exact (with `maxConcurrent =
0` the source loops forever; the model then exhausts fuel). -/
def runLoop (maxConcurrent maxRetries retryDelay tEnd : Nat)
    (attemptOf : List Char → Nat → AttemptSpec) :
    Nat → List (List Char) → List (List Char × Task) → Stats → RunOut
  | 0, _, _, s =>
    { yields := [], events := [], sizes := [], statsTr := [], stats := stampEnd tEnd s }
  | fuel + 1, q, m, s =>
    if q.isEmpty && m.isEmpty then
      { yields := [], events := [], sizes := [], statsTr := [], stats := stampEnd tEnd s }
    else
      let f := fillLoop maxConcurrent maxRetries retryDelay attemptOf q m s
      match f.inflight with
      | [] =>
        let r := runLoop maxConcurrent maxRetries retryDelay tEnd attemptOf fuel f.queue [] f.stats
        { yields := r.yields, events := f.events ++ r.events
          sizes := f.sizes ++ r.sizes, statsTr := f.statsTr ++ r.statsTr
          stats := r.stats }
      | (p, res) :: rest =>
        let r := runLoop maxConcurrent maxRetries retryDelay tEnd attemptOf fuel f.queue rest f.stats
        { yields := (match res with | .ok c => [(p, c)] | .error _ => []) ++ r.yields
          events := f.events ++ r.events
          sizes := f.sizes ++ rest.length :: r.sizes
          statsTr := f.statsTr ++ r.statsTr
          stats := r.stats }

/-- `processFiles(files)` on a processor constructed at clock reading `t0`
(processor.ts:130-134, 265-295): queue initialized from the input list,
in-flight map empty, stats fresh. -/
def processFiles (maxConcurrent maxRetries retryDelay : Nat)
    (attemptOf : List Char → Nat → AttemptSpec) (files : List (List Char))
    (t0 tEnd : Nat) : RunOut :=
  runLoop maxConcurrent maxRetries retryDelay tEnd attemptOf
    (files.length + 1) files [] (initStats t0)

/-- The settled outcome of the pipeline for path `p` (what awaiting its
promise observes). -/
def taskResult (maxRetries retryDelay : Nat)
    (attemptOf : List Char → Nat → AttemptSpec) (p : List Char) : Task :=
  (processFileWithRetry maxRetries retryDelay attemptOf p).result

/-! ## Helper lemmas -/

/-- The pure normalization chain applied to the (possibly `!`-stripped) body. -/
def normChain (l : List Char) : List Char :=
  stripTrailingSlash (stripLeadingDotSlash (replBackslash (jsTrim l)))

theorem normalizePattern_eq (allowNeg : Bool) (p : List Char) :
    normalizePattern allowNeg p =
      { pattern := normChain (if allowNeg && p.head? == some '!' then p.tail else p)
        negative := allowNeg && p.head? == some '!' } := rfl

theorem normalizePattern_not_neg {p : List Char} (h : p.head? ≠ some '!') :
    normalizePattern true p = ⟨normChain p, false⟩ := by
  have hb : (p.head? == some '!') = false := by
    simp only [beq_eq_false_iff_ne, ne_eq]; exact h
  simp [normalizePattern_eq, hb]

theorem normalizePattern_neg (P : List Char) :
    normalizePattern true ('!' :: P) = ⟨normChain P, true⟩ := by
  simp [normalizePattern_eq]

/-- A list all of whose elements satisfy `p` is its own `takeWhile`. -/
theorem takeWhile_of_all {α : Type} {p : α → Bool} {l : List α}
    (h : ∀ x ∈ l, p x = true) : l.takeWhile p = l :=
  List.takeWhile_eq_self_iff.mpr h

/-- A fully-reduced string is a fixed point of the normalization chain. -/
theorem normChain_fixed {t : List Char} (h2 : jsTrim t = t)
    (h3 : replBackslash t = t) (h4 : stripLeadingDotSlash t = t)
    (h5 : stripTrailingSlash t = t) : normChain t = t := by
  unfold normChain
  rw [h2, h3, h4, h5]

/-! ## Claim C7 — normalization idempotence (corrected) -/

/-- Claim C7, counterexample: normalization is NOT idempotent for every string.
`.replace(/\/$/, '')` strips only ONE trailing slash, so normalizing `a//`
yields `a/`, and normalizing `a/` again yields `a` — the normalized form of
`a//` is not a fixed point of the normalization procedure. -/
theorem claimC7counterexample :
    (normalizePattern true ((normalizePattern true ['a', '/', '/']).pattern)).pattern
      ≠ (normalizePattern true ['a', '/', '/']).pattern := by
  have h1 : (normalizePattern true ['a', '/', '/']).pattern = ['a', '/'] := rfl
  have h2 : (normalizePattern true ['a', '/']).pattern = ['a'] := rfl
  rw [h1, h2]
  decide

/-- Claim C7, amended: normalization is idempotent exactly on inputs whose
first pass already yields a fully-reduced string — one that does not start
with `!`, is its own trim, contains no backslashes, has no leading `./` or
`/`, and has no trailing `/`. On such strings the second pass returns the
first pass's output unchanged. (In general a second pass can strip further, as
the counterexample `a//` shows.) -/
theorem claimC7amended (s : List Char)
    (h1 : ((normalizePattern true s).pattern).head? ≠ some '!')
    (h2 : jsTrim ((normalizePattern true s).pattern) = (normalizePattern true s).pattern)
    (h3 : replBackslash ((normalizePattern true s).pattern) = (normalizePattern true s).pattern)
    (h4 : stripLeadingDotSlash ((normalizePattern true s).pattern) = (normalizePattern true s).pattern)
    (h5 : stripTrailingSlash ((normalizePattern true s).pattern) = (normalizePattern true s).pattern) :
    (normalizePattern true ((normalizePattern true s).pattern)).pattern
      = (normalizePattern true s).pattern := by
  rw [normalizePattern_not_neg h1]
  exact normChain_fixed h2 h3 h4 h5

/-- Witness for C7-amended at `s = "./b"`, whose normalized form `b` is fully
reduced. -/
theorem claimC7amendedWitness :
    (normalizePattern true ((normalizePattern true ['.', '/', 'b']).pattern)).pattern
      = (normalizePattern true ['.', '/', 'b']).pattern :=
  claimC7amended ['.', '/', 'b'] (by decide) (by decide) (by decide) (by decide) (by decide)

/-! ## Claim C8 — scanner extension computation (corrected) -/

theorem splitOnChar_cons (sep c : Char) (rest : List Char) :
    splitOnChar sep (c :: rest) =
      match splitOnChar sep rest with
      | [] => [[c]]
      | seg :: segs => if c = sep then [] :: seg :: segs else (c :: seg) :: segs := rfl

theorem splitOnChar_ne_nil (sep : Char) (s : List Char) : splitOnChar sep s ≠ [] := by
  induction s with
  | nil => simp [splitOnChar]
  | cons c rest ih =>
    rcases hsp : splitOnChar sep rest with _ | ⟨seg, segs⟩
    · exact absurd hsp ih
    · simp only [splitOnChar_cons, hsp]
      split <;> simp

theorem splitOnChar_of_not_mem {sep : Char} {s : List Char} (h : sep ∉ s) :
    splitOnChar sep s = [s] := by
  induction s with
  | nil => rfl
  | cons c rest ih =>
    have hc : ¬c = sep := fun he => h (he ▸ List.mem_cons_self c rest)
    have hr : sep ∉ rest := fun hm => h (List.mem_cons_of_mem c hm)
    simp only [splitOnChar_cons, ih hr, if_neg hc]

theorem takeWhile_length_eq_iff {α : Type} {p : α → Bool} {l : List α} :
    (l.takeWhile p).length = l.length ↔ ∀ x ∈ l, p x = true := by
  induction l with
  | nil => simp
  | cons x xs ih =>
    cases hp : p x with
    | true => simpa [List.takeWhile_cons, hp] using ih
    | false =>
      simp only [List.takeWhile_cons, hp]
      constructor
      · intro h
        simp at h
      · intro h
        have hx := h x (List.mem_cons_self x xs)
        rw [hp] at hx
        exact absurd hx (by simp)

theorem takeWhile_append_single_false {α : Type} {p : α → Bool} {a : α}
    (h : p a = false) (xs : List α) :
    (xs ++ [a]).takeWhile p = xs.takeWhile p := by
  rw [List.takeWhile_append]
  split
  · next hlen =>
    have hall := takeWhile_length_eq_iff.mp hlen
    rw [takeWhile_of_all hall]
    simp [List.takeWhile_cons, h]
  · rfl

theorem takeWhile_append_single_true {α : Type} {p : α → Bool} {a : α}
    (h : p a = true) {xs : List α} (hall : ∀ x ∈ xs, p x = true) :
    (xs ++ [a]).takeWhile p = xs ++ [a] := by
  rw [List.takeWhile_append, if_pos (takeWhile_length_eq_iff.mpr hall)]
  simp [List.takeWhile_cons, h]

theorem two_le_splitOnChar_of_mem {sep : Char} {s : List Char} (h : sep ∈ s) :
    2 ≤ (splitOnChar sep s).length := by
  induction s with
  | nil => cases h
  | cons c rest ih =>
    rcases hsp : splitOnChar sep rest with _ | ⟨seg, segs⟩
    · exact absurd hsp (splitOnChar_ne_nil sep rest)
    by_cases hc : c = sep
    · subst hc
      simp [splitOnChar_cons, hsp]
    · have hr : sep ∈ rest := by
        rcases List.mem_cons.mp h with h1 | h2
        · exact absurd h1.symm hc
        · exact h2
      have h2 := ih hr
      rw [hsp] at h2
      simp only [splitOnChar_cons, hsp, if_neg hc]
      simpa using h2

/-- The last segment of a `.`-split is the maximal dot-free suffix. -/
theorem splitOnChar_dot_getLast (s : List Char) :
    (splitOnChar '.' s).getLast? = some (afterLastDot s) := by
  induction s with
  | nil => simp [splitOnChar, afterLastDot]
  | cons c rest ih =>
    have hdot : (fun x => decide ¬x = '.') '.' = false := by simp
    rcases hsp : splitOnChar '.' rest with _ | ⟨seg, segs⟩
    · exact absurd hsp (splitOnChar_ne_nil '.' rest)
    by_cases hc : c = '.'
    · subst hc
      have hstep : splitOnChar '.' ('.' :: rest) = [] :: seg :: segs := by
        simp only [splitOnChar_cons, hsp, if_pos]
      rw [hstep, List.getLast?_cons_cons, ← hsp, ih]
      simp only [afterLastDot, List.reverse_cons]
      rw [takeWhile_append_single_false (p := fun c => decide (c ≠ '.')) (a := '.')
        (by simp) rest.reverse]
    · have hpc : (fun x => decide ¬x = '.') c = true := by simpa using hc
      have hstep : splitOnChar '.' (c :: rest) = (c :: seg) :: segs := by
        simp only [splitOnChar_cons, hsp, if_neg hc]
      rw [hstep]
      cases segs with
      | nil =>
        have hnr : '.' ∉ rest := by
          intro hm
          have h2 := two_le_splitOnChar_of_mem hm
          rw [hsp] at h2
          simp at h2
        have hseg : seg = rest := by
          have hone := splitOnChar_of_not_mem hnr
          rw [hsp] at hone
          exact (List.cons.injEq _ _ _ _ ▸ hone).1
        have hall : ∀ x ∈ rest.reverse, (fun c => decide (c ≠ '.')) x = true := by
          intro x hx
          have hxr : x ∈ rest := List.mem_reverse.mp hx
          show decide (x ≠ '.') = true
          simp only [decide_eq_true_eq]
          intro he
          exact hnr (he ▸ hxr)
        rw [hseg]
        simp only [afterLastDot, List.reverse_cons]
        rw [takeWhile_append_single_true (p := fun c => decide (c ≠ '.')) (a := c)
          (by simpa using hc) hall]
        simp
      | cons s2 ss =>
        have hin : '.' ∈ rest := by
          by_contra hnr
          have hone := splitOnChar_of_not_mem hnr
          rw [hsp] at hone
          simp at hone
        have hnotall :
            ¬(List.length (List.takeWhile (fun x => decide ¬x = '.') rest.reverse)
              = List.length rest.reverse) := by
          intro hlen
          have hall := takeWhile_length_eq_iff.mp hlen
          have hcontra := hall '.' (List.mem_reverse.mpr hin)
          simp at hcontra
        have hback : (seg :: s2 :: ss).getLast? = (s2 :: ss).getLast? :=
          List.getLast?_cons_cons
        rw [List.getLast?_cons_cons, ← hback, ← hsp, ih]
        simp only [afterLastDot, List.reverse_cons]
        rw [List.takeWhile_append, if_neg hnotall]

theorem fileExtension_eq (name : List Char) :
    fileExtension name = (afterLastDot name).map jsToLower := by
  unfold fileExtension
  rw [splitOnChar_dot_getLast]
  cases hl : (afterLastDot name).map jsToLower with
  | nil => simp [hl]
  | cons a l => simp [hl]

/-- Claim C8, counterexample: for the name `README` (containing no `.`) the
computed extension is the whole lowercased name `readme`, NOT the empty string
the claim asserts; consequently, with allow-list `["readme"]` the file is
accepted, whereas the claim (extension `"" ∉` list) predicts rejection. -/
theorem claimC8counterexample :
    fileExtension ['R', 'E', 'A', 'D', 'M', 'E'] = ['r', 'e', 'a', 'd', 'm', 'e']
    ∧ extReject [['r', 'e', 'a', 'd', 'm', 'e']] ['R', 'E', 'A', 'D', 'M', 'E'] = false := by
  exact ⟨rfl, rfl⟩

/-- Claim C8, amended: the extension used for filtering and for the
`ScanEntry.extension` field is the lowercased maximal dot-free suffix of the
name — i.e. the substring after the last `.` when the name contains one, and
the WHOLE lowercased name (not the empty string) when it contains none — and,
with a non-empty allow-list, a file is rejected exactly when this extension is
not in the list. -/
theorem claimC8amended (name : List Char) (exts : List (List Char)) :
    fileExtension name = (afterLastDot name).map jsToLower
    ∧ ('.' ∉ name → fileExtension name = name.map jsToLower)
    ∧ (extReject exts name = true ↔ exts ≠ [] ∧ fileExtension name ∉ exts) := by
  refine ⟨fileExtension_eq name, ?_, ?_⟩
  · intro hnd
    rw [fileExtension_eq]
    have hall : ∀ x ∈ name.reverse, (fun c => decide (c ≠ '.')) x = true := by
      intro x hx
      have hxr : x ∈ name := List.mem_reverse.mp hx
      show decide (x ≠ '.') = true
      simp only [decide_eq_true_eq]
      intro he
      exact hnd (he ▸ hxr)
    unfold afterLastDot
    rw [takeWhile_of_all hall, List.reverse_reverse]
  · unfold extReject
    constructor
    · intro h
      have h1 := (Bool.and_eq_true _ _).mp h
      refine ⟨?_, ?_⟩
      · have := of_decide_eq_true h1.1
        intro he
        rw [he] at this
        simp at this
      · intro hmem
        have h2 := h1.2
        rw [Bool.not_eq_true'] at h2
        have h3 : List.elem (fileExtension name) exts = false := h2
        rw [List.elem_iff.mpr hmem] at h3
        cases h3
    · intro ⟨h1, h2⟩
      refine (Bool.and_eq_true _ _).mpr ⟨?_, ?_⟩
      · refine decide_eq_true ?_
        cases hx : exts with
        | nil => exact absurd hx h1
        | cons a l => simp
      · rw [Bool.not_eq_true']
        cases he : exts.contains (fileExtension name) with
        | false => rfl
        | true => exact absurd (List.elem_iff.mp he) h2

/-- Witness for C8-amended at `README` with allow-list `["md"]`. -/
theorem claimC8amendedWitness :
    fileExtension ['R', 'E', 'A', 'D', 'M', 'E']
        = (['R', 'E', 'A', 'D', 'M', 'E']).map jsToLower
    ∧ (extReject [['m', 'd']] ['R', 'E', 'A', 'D', 'M', 'E'] = true ↔
        [['m', 'd']] ≠ []
          ∧ fileExtension ['R', 'E', 'A', 'D', 'M', 'E'] ∉ [['m', 'd']]) :=
  ⟨(claimC8amended ['R', 'E', 'A', 'D', 'M', 'E'] [['m', 'd']]).2.1 (by decide),
   (claimC8amended ['R', 'E', 'A', 'D', 'M', 'E'] [['m', 'd']]).2.2⟩

/-! ## Claim C4 — last-match-wins negation semantics (corrected) -/

theorem foldl_verdict_of_no_match {np : List Char} {rules : List Rule} (b : Bool)
    (h : ∀ r ∈ rules, r.test np = false) :
    rules.foldl (fun ign r => if r.test np then !r.negative else ign) b = b := by
  induction rules generalizing b with
  | nil => rfl
  | cons r rs ih =>
    have hr := h r (List.mem_cons_self r rs)
    simp only [List.foldl_cons, hr]
    exact ih b (fun x hx => h x (List.mem_cons_of_mem r hx))

/-- Claim C4, counterexample: the claim fails for a pattern that itself begins
with `!`. For `P = "!a"`, adding `P` records a NEGATION rule for `a` (the
normalizer strips the leading `!` of `P` itself), so after
`addPatterns(["!" + P, P])` — that is `["!!a", "!a"]` — the path `a`, which
P's compiled matcher matches, is NOT ignored, though the claim predicts
`shouldIgnore = true` for this addition order. (`compile` is instantiated with
literal equality of the normalized pattern against the path.) -/
theorem claimC4counterexample :
    (fun a b : List Char => a == b) (normalizePattern true ['!', 'a']).pattern
        (normalizePattern true ['a']).pattern = true
    ∧ shouldIgnore true
        (addPatterns true (fun a b : List Char => a == b) [] [['!', '!', 'a'], ['!', 'a']])
        ['a'] = false := by
  exact ⟨rfl, rfl⟩

/-- Claim C4, amended: restricted to patterns `P` that do not themselves start
with `!` and whose normalized form is non-empty, the claim holds: when the
compiled matcher of `P` matches the normalized path, adding `P` then `!P`
yields "not ignored", adding `!P` then `P` yields "ignored", and a path
matching zero rules is never ignored — the verdict is the negation state of
the last matching rule in addition order. -/
theorem claimC4amended (compile : List Char → List Char → Bool) (P p : List Char)
    (hP : P.head? ≠ some '!')
    (hne : (normalizePattern true P).pattern ≠ [])
    (hm : compile (normalizePattern true P).pattern
        (normalizePattern true p).pattern = true) :
    shouldIgnore true (addPatterns true compile [] [P, '!' :: P]) p = false
    ∧ shouldIgnore true (addPatterns true compile [] ['!' :: P, P]) p = true
    ∧ ∀ rules : List Rule,
        rules.all (fun r => !(r.test ((normalizePattern true p).pattern))) = true →
        shouldIgnore true rules p = false := by
  have hnormP := normalizePattern_not_neg hP
  have hnormN := normalizePattern_neg P
  have hne' : normChain P ≠ [] := by
    rw [hnormP] at hne
    exact hne
  have hie : (normChain P).isEmpty = false := by
    cases hcp : normChain P with
    | nil => exact absurd hcp hne'
    | cons a l => rfl
  have hm' : compile (normChain P) (normalizePattern true p).pattern = true := by
    rw [hnormP] at hm
    exact hm
  refine ⟨?_, ?_, ?_⟩
  · simp [shouldIgnore, addPatterns, addPattern, hnormP, hnormN, hie, hm']
  · simp [shouldIgnore, addPatterns, addPattern, hnormP, hnormN, hie, hm']
  · intro rules hall
    unfold shouldIgnore
    refine foldl_verdict_of_no_match false ?_
    intro r hr
    have := (List.all_eq_true.mp hall) r hr
    rwa [Bool.not_eq_true'] at this

/-- Witness for C4-amended at `P = "a"`, `p = "a"`, with `compile` literal
equality. -/
theorem claimC4amendedWitness :
    shouldIgnore true
        (addPatterns true (fun a b : List Char => a == b) [] [['a'], '!' :: ['a']])
        ['a'] = false
    ∧ shouldIgnore true
        (addPatterns true (fun a b : List Char => a == b) [] ['!' :: ['a'], ['a']])
        ['a'] = true :=
  ⟨(claimC4amended (fun a b : List Char => a == b) ['a'] ['a']
      (by decide) (by decide) (by rfl)).1,
   (claimC4amended (fun a b : List Char => a == b) ['a'] ['a']
      (by decide) (by decide) (by rfl)).2.1⟩

/-! ## Claim C6 — loadFromFile rule sourcing (corrected) -/

theorem addPattern_append (a : Bool) (c : List Char → List Char → Bool)
    (rules : List Rule) (p : List Char) :
    addPattern a c rules p = rules ++ addPattern a c [] p := by
  by_cases h : (normalizePattern a p).pattern.isEmpty = true
  · simp [addPattern, h]
  · simp [addPattern, h]

theorem addPatterns_append (a : Bool) (c : List Char → List Char → Bool)
    (rules : List Rule) (ps : List (List Char)) :
    addPatterns a c rules ps = rules ++ addPatterns a c [] ps := by
  induction ps generalizing rules with
  | nil => simp [addPatterns]
  | cons p ps ih =>
    show addPatterns a c (addPattern a c rules p) ps = _
    rw [ih (addPattern a c rules p), addPattern_append,
      show addPatterns a c [] (p :: ps) = addPatterns a c (addPattern a c [] p) ps from rfl,
      ih (addPattern a c [] p), List.append_assoc]

/-- Claim C6, counterexample: with the gitignore option explicitly enabled and
a one-rule gitignore present, `loadFromFile` yields ZERO rules when the
primary ignore file is missing — the nested gitignore block is skipped because
the failed primary read jumps to the outer `catch` — whereas if the primary
file is present (here: present but empty, contributing zero rules itself) the
same gitignore contributes its one rule. The claim ("each missing file
contributes exactly zero rules while the rules from the other sources are
still loaded") predicts one rule in both runs. -/
theorem claimC6counterexample :
    (loadFromFile (fun a b : List Char => a == b)
        ⟨true, some true, none⟩ none (some ['g'])).length = 0
    ∧ (loadFromFile (fun a b : List Char => a == b)
        ⟨true, some true, none⟩ (some []) (some ['g'])).length = 1 := by
  exact ⟨rfl, rfl⟩

/-- Claim C6, amended: `loadFromFile` is total and sources rules in the order
caller-supplied extra patterns, then primary-file rules, then (when the raw
gitignore option is explicitly `true`) gitignore rules; a missing SECONDARY
file contributes zero rules while the rest are loaded; but a missing PRIMARY
file short-circuits: only the extra patterns are loaded, and the secondary
file's rules are dropped even when present and enabled. -/
theorem claimC6amended (c : List Char → List Char → Bool) (opts : LoadOptions)
    (cPrim g : List Char) :
    (∀ git : Option (List Char),
      loadFromFile c opts none git =
        addPatterns opts.allowNegation c []
          (match opts.extraPatternsRaw with | some ps => ps | none => []))
    ∧ loadFromFile c opts (some cPrim) none =
        addPatterns opts.allowNegation c []
          (match opts.extraPatternsRaw with | some ps => ps | none => [])
          ++ addPatterns opts.allowNegation c [] (fileLines cPrim)
    ∧ (opts.useGitignoreRaw = some true →
        loadFromFile c opts (some cPrim) (some g) =
          addPatterns opts.allowNegation c []
            (match opts.extraPatternsRaw with | some ps => ps | none => [])
            ++ addPatterns opts.allowNegation c [] (fileLines cPrim)
            ++ addPatterns opts.allowNegation c [] (fileLines g))
    ∧ (opts.useGitignoreRaw ≠ some true →
        loadFromFile c opts (some cPrim) (some g) =
          addPatterns opts.allowNegation c []
            (match opts.extraPatternsRaw with | some ps => ps | none => [])
            ++ addPatterns opts.allowNegation c [] (fileLines cPrim)) := by
  have hextra :
      (match opts.extraPatternsRaw with
        | some ps => addPatterns opts.allowNegation c [] ps
        | none => []) =
      addPatterns opts.allowNegation c []
        (match opts.extraPatternsRaw with | some ps => ps | none => []) := by
    cases opts.extraPatternsRaw with
    | some ps => rfl
    | none => rfl
  refine ⟨?_, ?_, ?_, ?_⟩
  · intro git
    show (match opts.extraPatternsRaw with
      | some ps => addPatterns opts.allowNegation c [] ps
      | none => []) = _
    exact hextra
  · show (if opts.useGitignoreRaw = some true then _ else _) = _
    split <;> rw [addPatterns_append, hextra]
  · intro hgit
    show (if opts.useGitignoreRaw = some true then _ else _) = _
    rw [if_pos hgit, addPatterns_append,
      addPatterns_append opts.allowNegation c
        (match opts.extraPatternsRaw with
          | some ps => addPatterns opts.allowNegation c [] ps
          | none => []) (fileLines cPrim),
      hextra, List.append_assoc]
  · intro hgit
    show (if opts.useGitignoreRaw = some true then _ else _) = _
    rw [if_neg hgit, addPatterns_append, hextra]

/-- Witness for C6-amended at concrete inputs (gitignore enabled, one-line
contents). -/
theorem claimC6amendedWitness :
    loadFromFile (fun a b : List Char => a == b) ⟨true, some true, some [['x']]⟩
        (some ['a']) (some ['g']) =
      addPatterns true (fun a b : List Char => a == b) [] [['x']]
        ++ addPatterns true (fun a b : List Char => a == b) [] (fileLines ['a'])
        ++ addPatterns true (fun a b : List Char => a == b) [] (fileLines ['g']) :=
  (claimC6amended (fun a b : List Char => a == b) ⟨true, some true, some [['x']]⟩
    ['a'] ['g']).2.2.1 rfl

/-! ## Claim C3 — retry count and linear backoff (confirmed) -/

theorem retryLoop_fail_spec (R d : Nat) (attempt : Nat → AttemptSpec) (path : List Char)
    (hf : ∀ k, (attempt k).fails = true) :
    ∀ fuel rc lastErr, R + 1 ≤ fuel + rc → rc ≤ R + 1 →
      (retryLoop R d attempt path fuel rc lastErr).attempts = R + 1 - rc
      ∧ (retryLoop R d attempt path fuel rc lastErr).delays
          = (List.range' (rc + 1) (R - rc)).map (fun k => d * k)
      ∧ ∃ e, (retryLoop R d attempt path fuel rc lastErr).result = .error e
          ∧ e.retryCount = R + 1 ∧ e.filePath = path := by
  intro fuel
  induction fuel with
  | zero =>
    intro rc lastErr hge hle
    have hrc : rc = R + 1 := by omega
    subst hrc
    refine ⟨by simp [retryLoop, retryFail], ?_, ?_⟩
    · simp [retryLoop, retryFail, Nat.sub_eq_zero_of_le (Nat.le_succ R)]
    · exact ⟨_, rfl, rfl, rfl⟩
  | succ fuel ih =>
    intro rc lastErr hge hle
    by_cases hrc : rc ≤ R
    · have hfail := hf rc
      cases hatt : attempt rc with
      | ok content n =>
        rw [hatt] at hfail
        simp [AttemptSpec.fails] at hfail
      | valFail msg =>
        have hrec := ih (rc + 1) msg (by omega) (by omega)
        simp only [retryLoop, if_pos hrc, hatt]
        refine ⟨by simp [hrec.1]; omega, ?_, hrec.2.2⟩
        rcases Nat.lt_or_ge rc R with h | h
        · rw [if_pos (by omega : rc + 1 ≤ R), hrec.2.1,
            show R - rc = (R - (rc + 1)) + 1 by omega, List.range'_succ]
          simp
        · have hR : rc = R := by omega
          subst hR
          rw [if_neg (by omega), hrec.2.1]
          simp [Nat.sub_eq_zero_of_le]
      | readFail msg n =>
        have hrec := ih (rc + 1) msg (by omega) (by omega)
        simp only [retryLoop, if_pos hrc, hatt]
        refine ⟨by simp [hrec.1]; omega, ?_, hrec.2.2⟩
        rcases Nat.lt_or_ge rc R with h | h
        · rw [if_pos (by omega : rc + 1 ≤ R), hrec.2.1,
            show R - rc = (R - (rc + 1)) + 1 by omega, List.range'_succ]
          simp
        · have hR : rc = R := by omega
          subst hR
          rw [if_neg (by omega), hrec.2.1]
          simp [Nat.sub_eq_zero_of_le]
    · have hrc1 : rc = R + 1 := by omega
      subst hrc1
      simp only [retryLoop, if_neg hrc]
      refine ⟨by simp [retryFail], ?_, ?_⟩
      · simp [retryFail, Nat.sub_eq_zero_of_le (Nat.le_succ R)]
      · exact ⟨_, rfl, rfl, rfl⟩

/-- Claim C3: with `maxRetries = R`, a path whose validation or read fails on
EVERY attempt makes exactly `R + 1` attempts; the thrown `FileError` carries
the path and `retryCount = R + 1`; and the awaited backoff delays between
consecutive attempts are exactly `retryDelay * k` for `k = 1..R` (linear
backoff, no delay after the final failure). -/
theorem claimC3retry (R d : Nat) (attemptOf : List Char → Nat → AttemptSpec)
    (p : List Char) (hf : ∀ k, (attemptOf p k).fails = true) :
    (processFileWithRetry R d attemptOf p).attempts = R + 1
    ∧ (processFileWithRetry R d attemptOf p).delays
        = (List.range' 1 R).map (fun k => d * k)
    ∧ ∃ e, (processFileWithRetry R d attemptOf p).result = .error e
        ∧ e.retryCount = R + 1 ∧ e.filePath = p := by
  have h := retryLoop_fail_spec R d (attemptOf p) p hf (R + 1) 0 unknownErrMsg
    (by omega) (by omega)
  simpa [processFileWithRetry] using h

/-- Witness for C3 at `R = 2`, `d = 10`: three attempts, delays `[10, 20]`,
final `retryCount = 3`. -/
theorem claimC3retryWitness :
    (processFileWithRetry 2 10 (fun _ _ => .valFail ['x']) ['p']).attempts = 3
    ∧ (processFileWithRetry 2 10 (fun _ _ => .valFail ['x']) ['p']).delays = [10, 20]
    ∧ (processFileWithRetry 2 10 (fun _ _ => .valFail ['x']) ['p']).result
        = .error ⟨['F', 'i', 'l', 'e', 'P', 'r', 'o', 'c', 'e', 's', 's',
            'E', 'r', 'r', 'o', 'r'], ['x'], ['p'], 3⟩ := by
  have h := claimC3retry 2 10 (fun _ _ => .valFail ['x']) ['p'] (fun k => rfl)
  exact ⟨h.1, h.2.1.trans (by decide), rfl⟩

/-! ## Claim C9 — zero-byte file (confirmed) -/

/-- Claim C9: a zero-byte file (its `read` returns EOF immediately, so the
chunk list is empty) is read successfully: the content is empty, NO progress
snapshot is ever constructed — in particular the percentage expression
`bytesRead / totalBytes * 100` is never evaluated with `totalBytes = 0` —
and the attempt's event sequence is exactly one `start` followed by one
`complete`. -/
theorem claimC9zeroByte (interval t0 mR mD : Nat) (path : List Char) :
    (readFileWithProgress interval 0 t0 []).content = []
    ∧ (readFileWithProgress interval 0 t0 []).progress = []
    ∧ (processFileWithRetry mR mD
        (fun _ _ => .ok (readFileWithProgress interval 0 t0 []).content
          (readFileWithProgress interval 0 t0 []).progress.length) path).result = .ok []
    ∧ (processFileWithRetry mR mD
        (fun _ _ => .ok (readFileWithProgress interval 0 t0 []).content
          (readFileWithProgress interval 0 t0 []).progress.length) path).events
        = [⟨.start, path⟩, ⟨.complete, path⟩] := by
  refine ⟨rfl, rfl, ?_, ?_⟩
  · simp [processFileWithRetry, retryLoop, readFileWithProgress, readLoop]
  · simp [processFileWithRetry, retryLoop, readFileWithProgress, readLoop]

/-! ## processFiles loop lemmas -/

theorem mapSet_of_not_mem {m : List (List Char × Task)} {k : List Char}
    (h : k ∉ m.map Prod.fst) (v : Task) : mapSet m k v = m ++ [(k, v)] := by
  unfold mapSet
  rw [if_neg h]

theorem mapSet_of_mem_invariant {m : List (List Char × Task)} {k : List Char}
    {f : List Char → Task} (hval : ∀ e ∈ m, e.2 = f e.1)
    (h : k ∈ m.map Prod.fst) : mapSet m k (f k) = m := by
  unfold mapSet
  rw [if_pos h]
  have : ∀ e ∈ m, (if e.1 = k then (k, f k) else e) = id e := by
    intro e he
    by_cases hek : e.1 = k
    · simp only [if_pos hek, id]
      have h2 := hval e he
      rw [Prod.ext_iff]
      exact ⟨hek.symm, by rw [h2, hek]⟩
    · simp only [if_neg hek, id]
  rw [List.map_congr_left this, List.map_id]

theorem mapSet_values {m : List (List Char × Task)} {k : List Char} {v : Task}
    {P : List Char × Task → Prop} (hm : ∀ e ∈ m, P e) (hkv : P (k, v)) :
    ∀ e ∈ mapSet m k v, P e := by
  unfold mapSet
  split
  · intro e he
    rcases List.mem_map.mp he with ⟨x, hx, hxe⟩
    by_cases hxk : x.1 = k
    · rw [if_pos hxk] at hxe
      exact hxe ▸ hkv
    · rw [if_neg hxk] at hxe
      exact hxe ▸ hm x hx
  · intro e he
    rcases List.mem_append.mp he with h1 | h2
    · exact hm e h1
    · rw [List.mem_singleton.mp h2]
      exact hkv

theorem mapSet_length_ge (m : List (List Char × Task)) (k : List Char) (v : Task) :
    m.length ≤ (mapSet m k v).length := by
  unfold mapSet
  split
  · rw [List.length_map]
  · rw [List.length_append]
    omega

theorem mapSet_length_le (m : List (List Char × Task)) (k : List Char) (v : Task) :
    (mapSet m k v).length ≤ m.length + 1 := by
  unfold mapSet
  split
  · rw [List.length_map]
    omega
  · rw [List.length_append]
    simp

/-- One-step unfolding of `fillLoop` in the insert case. -/
theorem fillLoop_cons_lt {C mR mD : Nat} {attemptOf : List Char → Nat → AttemptSpec}
    {p : List Char} {q : List (List Char)} {m : List (List Char × Task)} {s : Stats}
    (h : m.length < C) :
    fillLoop C mR mD attemptOf (p :: q) m s =
      (let r := processFileWithRetry mR mD attemptOf p
       let m' := mapSet m p r.result
       let sTr := applyUpds s r.statUpdates
       let out := fillLoop C mR mD attemptOf q m' sTr.1
       { out with events := r.events ++ out.events
                  sizes := m'.length :: out.sizes
                  statsTr := sTr.2 ++ out.statsTr }) := by
  simp only [fillLoop, if_pos h]

/-- One-step unfolding of `fillLoop` at the cap. -/
theorem fillLoop_cons_ge {C mR mD : Nat} {attemptOf : List Char → Nat → AttemptSpec}
    {p : List Char} {q : List (List Char)} {m : List (List Char × Task)} {s : Stats}
    (h : ¬m.length < C) :
    fillLoop C mR mD attemptOf (p :: q) m s =
      { queue := p :: q, inflight := m, events := [], sizes := [], statsTr := [],
        stats := s } := by
  simp only [fillLoop, if_neg h]

/-- The in-flight map only grows during the refill loop. -/
theorem fillLoop_length_ge (C mR mD : Nat) (attemptOf : List Char → Nat → AttemptSpec) :
    ∀ (q : List (List Char)) (m : List (List Char × Task)) (s : Stats),
      m.length ≤ (fillLoop C mR mD attemptOf q m s).inflight.length := by
  intro q
  induction q with
  | nil =>
    intro m s
    simp [fillLoop]
  | cons p q ih =>
    intro m s
    by_cases h : m.length < C
    · rw [fillLoop_cons_lt h]
      exact le_trans
        (mapSet_length_ge m p (processFileWithRetry mR mD attemptOf p).result)
        (ih (mapSet m p (processFileWithRetry mR mD attemptOf p).result)
          (applyUpds s (processFileWithRetry mR mD attemptOf p).statUpdates).1)
    · rw [fillLoop_cons_ge h]

/-- Values invariant: every in-flight entry holds the settled result of its
own path's pipeline. -/
theorem fillLoop_values (C mR mD : Nat) (attemptOf : List Char → Nat → AttemptSpec) :
    ∀ (q : List (List Char)) (m : List (List Char × Task)) (s : Stats),
      (∀ e ∈ m, e.2 = taskResult mR mD attemptOf e.1) →
      ∀ e ∈ (fillLoop C mR mD attemptOf q m s).inflight,
        e.2 = taskResult mR mD attemptOf e.1 := by
  intro q
  induction q with
  | nil =>
    intro m s hval
    simpa [fillLoop] using hval
  | cons p q ih =>
    intro m s hval
    by_cases h : m.length < C
    · rw [fillLoop_cons_lt h]
      exact ih (mapSet m p (processFileWithRetry mR mD attemptOf p).result)
        (applyUpds s (processFileWithRetry mR mD attemptOf p).statUpdates).1
        (mapSet_values hval rfl)
    · rw [fillLoop_cons_ge h]
      exact hval

/-- With pairwise-distinct paths, the refill loop moves queue entries into the
in-flight map one-for-one: keys-then-queue is preserved. -/
theorem fillLoop_keys_nodup (C mR mD : Nat) (attemptOf : List Char → Nat → AttemptSpec) :
    ∀ (q : List (List Char)) (m : List (List Char × Task)) (s : Stats),
      (m.map Prod.fst ++ q).Nodup →
      (fillLoop C mR mD attemptOf q m s).inflight.map Prod.fst
          ++ (fillLoop C mR mD attemptOf q m s).queue
        = m.map Prod.fst ++ q := by
  intro q
  induction q with
  | nil =>
    intro m s _
    simp [fillLoop]
  | cons p q ih =>
    intro m s hnd
    by_cases h : m.length < C
    · have hpk : p ∉ m.map Prod.fst := by
        rcases List.nodup_append.mp hnd with ⟨_, _, hdisj⟩
        intro hmem
        exact hdisj hmem (List.mem_cons_self p q)
      rw [fillLoop_cons_lt h]
      show (fillLoop C mR mD attemptOf q
          (mapSet m p (processFileWithRetry mR mD attemptOf p).result) _).inflight.map Prod.fst
          ++ (fillLoop C mR mD attemptOf q _ _).queue = _
      rw [mapSet_of_not_mem hpk]
      have hnd' : ((m ++ [(p, (processFileWithRetry mR mD attemptOf p).result)]).map
          Prod.fst ++ q).Nodup := by
        rw [List.map_append]
        simpa [List.append_assoc] using hnd
      rw [ih (m ++ [(p, (processFileWithRetry mR mD attemptOf p).result)]) _ hnd']
      simp [List.append_assoc]
    · rw [fillLoop_cons_ge h]

/-- Without the distinctness assumption, the refill loop still never reorders:
keys-then-queue of the output is a sublist of keys-then-queue of the input
(a duplicate queue entry overwrites its in-flight twin in place and vanishes
from the queue). Requires the values invariant so the overwrite is the
identity. -/
theorem fillLoop_keys_sublist (C mR mD : Nat) (attemptOf : List Char → Nat → AttemptSpec) :
    ∀ (q : List (List Char)) (m : List (List Char × Task)) (s : Stats),
      (∀ e ∈ m, e.2 = taskResult mR mD attemptOf e.1) →
      ((fillLoop C mR mD attemptOf q m s).inflight.map Prod.fst
          ++ (fillLoop C mR mD attemptOf q m s).queue).Sublist
        (m.map Prod.fst ++ q) := by
  intro q
  induction q with
  | nil =>
    intro m s _
    simp [fillLoop]
  | cons p q ih =>
    intro m s hval
    by_cases h : m.length < C
    · rw [fillLoop_cons_lt h]
      show ((fillLoop C mR mD attemptOf q
          (mapSet m p (processFileWithRetry mR mD attemptOf p).result) _).inflight.map Prod.fst
          ++ (fillLoop C mR mD attemptOf q _ _).queue).Sublist _
      by_cases hpk : p ∈ m.map Prod.fst
      · rw [show mapSet m p (processFileWithRetry mR mD attemptOf p).result = m from
          mapSet_of_mem_invariant hval hpk]
        refine (ih m _ hval).trans ?_
        refine List.Sublist.append_left ?_ (m.map Prod.fst)
        exact List.sublist_cons_self p q
      · rw [mapSet_of_not_mem hpk]
        have hsub := ih (m ++ [(p, (processFileWithRetry mR mD attemptOf p).result)])
          (applyUpds s (processFileWithRetry mR mD attemptOf p).statUpdates).1
          (by
            intro e he
            rcases List.mem_append.mp he with h1 | h2
            · exact hval e h1
            · rw [List.mem_singleton.mp h2]
              rfl)
        refine hsub.trans ?_
        rw [List.map_append]
        simp [List.append_assoc]
    · rw [fillLoop_cons_ge h]

/-- Every in-flight size recorded during a refill stays within the cap, and so
does the final in-flight count. -/
theorem fillLoop_sizes_le (C mR mD : Nat) (attemptOf : List Char → Nat → AttemptSpec) :
    ∀ (q : List (List Char)) (m : List (List Char × Task)) (s : Stats),
      m.length ≤ C →
      (∀ n ∈ (fillLoop C mR mD attemptOf q m s).sizes, n ≤ C)
      ∧ (fillLoop C mR mD attemptOf q m s).inflight.length ≤ C := by
  intro q
  induction q with
  | nil =>
    intro m s hm
    exact ⟨by simp [fillLoop], by simpa [fillLoop] using hm⟩
  | cons p q ih =>
    intro m s hm
    by_cases h : m.length < C
    · rw [fillLoop_cons_lt h]
      have hlen : (mapSet m p (processFileWithRetry mR mD attemptOf p).result).length ≤ C := by
        have := mapSet_length_le m p (processFileWithRetry mR mD attemptOf p).result
        omega
      have hrec := ih (mapSet m p (processFileWithRetry mR mD attemptOf p).result)
        (applyUpds s (processFileWithRetry mR mD attemptOf p).statUpdates).1 hlen
      refine ⟨?_, hrec.2⟩
      intro n hn
      rcases List.mem_cons.mp hn with h1 | h2
      · omega
      · exact hrec.1 n h2
    · rw [fillLoop_cons_ge h]
      exact ⟨by simp, hm⟩

/-- The refill loop stops only when the queue is drained or the cap is
reached. -/
theorem fillLoop_refill (C mR mD : Nat) (attemptOf : List Char → Nat → AttemptSpec) :
    ∀ (q : List (List Char)) (m : List (List Char × Task)) (s : Stats),
      m.length ≤ C →
      (fillLoop C mR mD attemptOf q m s).queue = []
      ∨ (fillLoop C mR mD attemptOf q m s).inflight.length = C := by
  intro q
  induction q with
  | nil =>
    intro m s _
    left
    simp [fillLoop]
  | cons p q ih =>
    intro m s hm
    by_cases h : m.length < C
    · rw [fillLoop_cons_lt h]
      have hlen : (mapSet m p (processFileWithRetry mR mD attemptOf p).result).length ≤ C := by
        have := mapSet_length_le m p (processFileWithRetry mR mD attemptOf p).result
        omega
      exact ih (mapSet m p (processFileWithRetry mR mD attemptOf p).result)
        (applyUpds s (processFileWithRetry mR mD attemptOf p).statUpdates).1 hlen
    · rw [fillLoop_cons_ge h]
      right
      show m.length = C
      omega

/-- With a positive cap, refilling from an empty in-flight map and a non-empty
queue always starts at least one pipeline. -/
theorem fillLoop_inflight_ne_nil {C mR mD : Nat} {attemptOf : List Char → Nat → AttemptSpec}
    (hC : 1 ≤ C) (p : List Char) (q : List (List Char)) (s : Stats) :
    (fillLoop C mR mD attemptOf (p :: q) [] s).inflight ≠ [] := by
  have h0 : ([] : List (List Char × Task)).length < C := by
    simpa using hC
  rw [fillLoop_cons_lt h0]
  intro hnil
  have hge := fillLoop_length_ge C mR mD attemptOf q
    (mapSet [] p (processFileWithRetry mR mD attemptOf p).result)
    (applyUpds s (processFileWithRetry mR mD attemptOf p).statUpdates).1
  rw [show (fillLoop C mR mD attemptOf q
      (mapSet [] p (processFileWithRetry mR mD attemptOf p).result)
      (applyUpds s (processFileWithRetry mR mD attemptOf p).statUpdates).1).inflight
      = [] from hnil] at hge
  rw [mapSet_of_not_mem (by simp) _] at hge
  simp at hge

/-- The retry loop runs exactly one stats mutation: `processed++` on success,
`failed++` on exhaustion — there is no other mutation site in the source. -/
theorem retryLoop_statUpdates (R d : Nat) (attempt : Nat → AttemptSpec) (path : List Char) :
    ∀ fuel rc lastErr,
      (retryLoop R d attempt path fuel rc lastErr).statUpdates = [incProcessed]
      ∨ (retryLoop R d attempt path fuel rc lastErr).statUpdates = [incFailed] := by
  intro fuel
  induction fuel with
  | zero =>
    intro rc lastErr
    right
    rfl
  | succ fuel ih =>
    intro rc lastErr
    by_cases hrc : rc ≤ R
    · cases hatt : attempt rc with
      | ok content n =>
        left
        simp [retryLoop, if_pos hrc, hatt]
      | valFail msg =>
        simpa [retryLoop, if_pos hrc, hatt] using ih (rc + 1) msg
      | readFail msg n =>
        simpa [retryLoop, if_pos hrc, hatt] using ih (rc + 1) msg
    · right
      simp [retryLoop, if_neg hrc, retryFail]

/-- No execution of the retry loop ever posts a `skip` event: the source has
no `sendUpdate({type: 'skip', ...})` call. -/
theorem retryLoop_no_skip (R d : Nat) (attempt : Nat → AttemptSpec) (path : List Char) :
    ∀ fuel rc lastErr,
      ∀ u ∈ (retryLoop R d attempt path fuel rc lastErr).events, u.type ≠ .skip := by
  intro fuel
  induction fuel with
  | zero =>
    intro rc lastErr u hu
    rcases List.mem_singleton.mp hu with h
    rw [h]
    simp
  | succ fuel ih =>
    intro rc lastErr u hu
    by_cases hrc : rc ≤ R
    · rcases hatt : attempt rc with msg | ⟨msg, n⟩ | ⟨content, n⟩
      all_goals rw [retryLoop, if_pos hrc, hatt] at hu
      · exact ih (rc + 1) msg u hu
      · simp only [RetryOut.mk.injEq] at hu ⊢
        rcases List.mem_append.mp hu with h1 | h2
        · rcases List.mem_cons.mp h1 with hs | hp
          · rw [hs]; simp
          · have := List.eq_of_mem_replicate hp
            rw [this]; simp
        · exact ih (rc + 1) msg u h2
      · rcases List.mem_cons.mp hu with hs | hrest
        · rw [hs]; simp
        · rcases List.mem_append.mp hrest with h1 | h2
          · have := List.eq_of_mem_replicate h1
            rw [this]; simp
          · rcases List.mem_singleton.mp h2 with h
            rw [h]; simp
    · rw [retryLoop, if_neg hrc] at hu
      rcases List.mem_singleton.mp hu with h
      rw [h]
      simp

/-- A pipeline whose every attempt dies in validation (e.g. a too-large file)
takes the failure path: it increments `failed` and posts exactly one `error`
event (no `skip`). -/
theorem retryLoop_all_valFail (R d : Nat) (msg path : List Char) :
    ∀ fuel rc lastErr,
      (retryLoop R d (fun _ => .valFail msg) path fuel rc lastErr).statUpdates = [incFailed]
      ∧ (retryLoop R d (fun _ => .valFail msg) path fuel rc lastErr).events
          = [⟨.error, path⟩] := by
  intro fuel
  induction fuel with
  | zero =>
    intro rc lastErr
    exact ⟨rfl, rfl⟩
  | succ fuel ih =>
    intro rc lastErr
    by_cases hrc : rc ≤ R
    · simpa [retryLoop, if_pos hrc] using ih (rc + 1) msg
    · exact ⟨by simp [retryLoop, if_neg hrc, retryFail], by simp [retryLoop, if_neg hrc, retryFail]⟩

/-- Applying any sequence of the source's two mutation statements leaves
`skipped` and `totalSize` untouched, in the final value and in every
intermediate snapshot. -/
theorem applyUpds_clean {s : Stats} (h1 : s.skipped = 0) (h2 : s.totalSize = 0)
    {fs : List (Stats → Stats)} (hf : ∀ f ∈ fs, f = incProcessed ∨ f = incFailed) :
    ((applyUpds s fs).1.skipped = 0 ∧ (applyUpds s fs).1.totalSize = 0)
    ∧ ∀ x ∈ (applyUpds s fs).2, x.skipped = 0 ∧ x.totalSize = 0 := by
  induction fs generalizing s with
  | nil => exact ⟨⟨h1, h2⟩, by simp [applyUpds]⟩
  | cons f fs ih =>
    have hzero : (f s).skipped = 0 ∧ (f s).totalSize = 0 := by
      rcases hf f (List.mem_cons_self f fs) with h | h
      · rw [h]
        exact ⟨h1, h2⟩
      · rw [h]
        exact ⟨h1, h2⟩
    have hrec := ih hzero.1 hzero.2 (fun g hg => hf g (List.mem_cons_of_mem f hg))
    refine ⟨hrec.1, ?_⟩
    intro x hx
    rcases List.mem_cons.mp ((by simpa [applyUpds] using hx :
        x ∈ f s :: (applyUpds (f s) fs).2)) with h | h
    · rw [h]
      exact hzero
    · exact hrec.2 x h

/-- Cleanliness of a whole refill: starting from zero `skipped`/`totalSize`,
every snapshot stays zero and no `skip` event appears. -/
theorem fillLoop_clean (C mR mD : Nat) (attemptOf : List Char → Nat → AttemptSpec) :
    ∀ (q : List (List Char)) (m : List (List Char × Task)) (s : Stats),
      s.skipped = 0 → s.totalSize = 0 →
      ((fillLoop C mR mD attemptOf q m s).stats.skipped = 0
        ∧ (fillLoop C mR mD attemptOf q m s).stats.totalSize = 0)
      ∧ (∀ x ∈ (fillLoop C mR mD attemptOf q m s).statsTr,
          x.skipped = 0 ∧ x.totalSize = 0)
      ∧ (∀ u ∈ (fillLoop C mR mD attemptOf q m s).events, u.type ≠ .skip) := by
  intro q
  induction q with
  | nil =>
    intro m s h1 h2
    exact ⟨⟨h1, h2⟩, by simp [fillLoop], by simp [fillLoop]⟩
  | cons p q ih =>
    intro m s h1 h2
    by_cases h : m.length < C
    · rw [fillLoop_cons_lt h]
      have hfs : ∀ f ∈ (processFileWithRetry mR mD attemptOf p).statUpdates,
          f = incProcessed ∨ f = incFailed := by
        intro f hf
        rcases retryLoop_statUpdates mR mD (attemptOf p) p (mR + 1) 0 unknownErrMsg
          with hcase | hcase
        · left
          have hmem : f ∈ [incProcessed] := hcase ▸ hf
          exact List.mem_singleton.mp hmem
        · right
          have hmem : f ∈ [incFailed] := hcase ▸ hf
          exact List.mem_singleton.mp hmem
      have hupd := applyUpds_clean h1 h2 hfs
      have hrec := ih (mapSet m p (processFileWithRetry mR mD attemptOf p).result)
        (applyUpds s (processFileWithRetry mR mD attemptOf p).statUpdates).1
        hupd.1.1 hupd.1.2
      refine ⟨hrec.1, ?_, ?_⟩
      · intro x hx
        rcases List.mem_append.mp hx with ha | hb
        · exact hupd.2 x ha
        · exact hrec.2.1 x hb
      · intro u hu
        rcases List.mem_append.mp hu with ha | hb
        · exact retryLoop_no_skip mR mD (attemptOf p) p (mR + 1) 0 unknownErrMsg u ha
        · exact hrec.2.2 u hb
    · rw [fillLoop_cons_ge h]
      exact ⟨⟨h1, h2⟩, by simp, by simp⟩

theorem runLoop_succ_empty {C mR mD tEnd : Nat} {attemptOf : List Char → Nat → AttemptSpec}
    {fuel : Nat} {q : List (List Char)} {m : List (List Char × Task)} {s : Stats}
    (h : (q.isEmpty && m.isEmpty) = true) :
    runLoop C mR mD tEnd attemptOf (fuel + 1) q m s =
      { yields := [], events := [], sizes := [], statsTr := [], stats := stampEnd tEnd s } := by
  simp only [runLoop, if_pos h]

theorem runLoop_succ_nil {C mR mD tEnd : Nat} {attemptOf : List Char → Nat → AttemptSpec}
    {fuel : Nat} {q : List (List Char)} {m : List (List Char × Task)} {s : Stats}
    (h : ¬(q.isEmpty && m.isEmpty) = true)
    (hfi : (fillLoop C mR mD attemptOf q m s).inflight = []) :
    runLoop C mR mD tEnd attemptOf (fuel + 1) q m s =
      { yields := (runLoop C mR mD tEnd attemptOf fuel
            (fillLoop C mR mD attemptOf q m s).queue [] (fillLoop C mR mD attemptOf q m s).stats).yields
        events := (fillLoop C mR mD attemptOf q m s).events
          ++ (runLoop C mR mD tEnd attemptOf fuel
            (fillLoop C mR mD attemptOf q m s).queue [] (fillLoop C mR mD attemptOf q m s).stats).events
        sizes := (fillLoop C mR mD attemptOf q m s).sizes
          ++ (runLoop C mR mD tEnd attemptOf fuel
            (fillLoop C mR mD attemptOf q m s).queue [] (fillLoop C mR mD attemptOf q m s).stats).sizes
        statsTr := (fillLoop C mR mD attemptOf q m s).statsTr
          ++ (runLoop C mR mD tEnd attemptOf fuel
            (fillLoop C mR mD attemptOf q m s).queue [] (fillLoop C mR mD attemptOf q m s).stats).statsTr
        stats := (runLoop C mR mD tEnd attemptOf fuel
            (fillLoop C mR mD attemptOf q m s).queue [] (fillLoop C mR mD attemptOf q m s).stats).stats } := by
  simp only [runLoop, if_neg h, hfi]

theorem runLoop_succ_cons_ok {C mR mD tEnd : Nat} {attemptOf : List Char → Nat → AttemptSpec}
    {fuel : Nat} {q : List (List Char)} {m : List (List Char × Task)} {s : Stats}
    {p c : List Char} {rest : List (List Char × Task)}
    (h : ¬(q.isEmpty && m.isEmpty) = true)
    (hfi : (fillLoop C mR mD attemptOf q m s).inflight = (p, .ok c) :: rest) :
    runLoop C mR mD tEnd attemptOf (fuel + 1) q m s =
      { yields := (p, c) :: (runLoop C mR mD tEnd attemptOf fuel
            (fillLoop C mR mD attemptOf q m s).queue rest (fillLoop C mR mD attemptOf q m s).stats).yields
        events := (fillLoop C mR mD attemptOf q m s).events
          ++ (runLoop C mR mD tEnd attemptOf fuel
            (fillLoop C mR mD attemptOf q m s).queue rest (fillLoop C mR mD attemptOf q m s).stats).events
        sizes := (fillLoop C mR mD attemptOf q m s).sizes
          ++ rest.length :: (runLoop C mR mD tEnd attemptOf fuel
            (fillLoop C mR mD attemptOf q m s).queue rest (fillLoop C mR mD attemptOf q m s).stats).sizes
        statsTr := (fillLoop C mR mD attemptOf q m s).statsTr
          ++ (runLoop C mR mD tEnd attemptOf fuel
            (fillLoop C mR mD attemptOf q m s).queue rest (fillLoop C mR mD attemptOf q m s).stats).statsTr
        stats := (runLoop C mR mD tEnd attemptOf fuel
            (fillLoop C mR mD attemptOf q m s).queue rest (fillLoop C mR mD attemptOf q m s).stats).stats } := by
  simp only [runLoop, if_neg h, hfi]
  rfl

theorem runLoop_succ_cons_error {C mR mD tEnd : Nat} {attemptOf : List Char → Nat → AttemptSpec}
    {fuel : Nat} {q : List (List Char)} {m : List (List Char × Task)} {s : Stats}
    {p : List Char} {e : FileError} {rest : List (List Char × Task)}
    (h : ¬(q.isEmpty && m.isEmpty) = true)
    (hfi : (fillLoop C mR mD attemptOf q m s).inflight = (p, .error e) :: rest) :
    runLoop C mR mD tEnd attemptOf (fuel + 1) q m s =
      { yields := (runLoop C mR mD tEnd attemptOf fuel
            (fillLoop C mR mD attemptOf q m s).queue rest (fillLoop C mR mD attemptOf q m s).stats).yields
        events := (fillLoop C mR mD attemptOf q m s).events
          ++ (runLoop C mR mD tEnd attemptOf fuel
            (fillLoop C mR mD attemptOf q m s).queue rest (fillLoop C mR mD attemptOf q m s).stats).events
        sizes := (fillLoop C mR mD attemptOf q m s).sizes
          ++ rest.length :: (runLoop C mR mD tEnd attemptOf fuel
            (fillLoop C mR mD attemptOf q m s).queue rest (fillLoop C mR mD attemptOf q m s).stats).sizes
        statsTr := (fillLoop C mR mD attemptOf q m s).statsTr
          ++ (runLoop C mR mD tEnd attemptOf fuel
            (fillLoop C mR mD attemptOf q m s).queue rest (fillLoop C mR mD attemptOf q m s).stats).statsTr
        stats := (runLoop C mR mD tEnd attemptOf fuel
            (fillLoop C mR mD attemptOf q m s).queue rest (fillLoop C mR mD attemptOf q m s).stats).stats } := by
  simp only [runLoop, if_neg h, hfi]
  rfl

/-- If the queue and map are not both empty and the cap is positive, the
refill leaves at least one entry in flight. -/
theorem fillLoop_inflight_ne_nil_of_state (C mR mD : Nat)
    (attemptOf : List Char → Nat → AttemptSpec) (hC : 1 ≤ C)
    {q : List (List Char)} {m : List (List Char × Task)} (s : Stats)
    (h : ¬(q.isEmpty && m.isEmpty) = true) :
    (fillLoop C mR mD attemptOf q m s).inflight ≠ [] := by
  intro hnil
  have hm : m = [] := by
    have hge := fillLoop_length_ge C mR mD attemptOf q m s
    rw [hnil] at hge
    simpa using List.length_eq_zero.mp (Nat.le_zero.mp hge)
  subst hm
  cases q with
  | nil => exact h (by simp)
  | cons p q' => exact fillLoop_inflight_ne_nil hC p q' s hnil

/-- The outcome a pipeline settles to, as consumed by the yield loop. -/
def yieldOf (mR mD : Nat) (attemptOf : List Char → Nat → AttemptSpec)
    (p : List Char) : Option (List Char × List Char) :=
  match taskResult mR mD attemptOf p with
  | .ok c => some (p, c)
  | .error _ => none

/-- Main characterization of the generator's output for pairwise-distinct
paths: it yields exactly the succeeding paths, in queue order, with their
contents; failing paths contribute nothing. -/
theorem runLoop_yields_nodup (C mR mD tEnd : Nat)
    (attemptOf : List Char → Nat → AttemptSpec) (hC : 1 ≤ C) :
    ∀ (fuel : Nat) (q : List (List Char)) (m : List (List Char × Task)) (s : Stats),
      (m.map Prod.fst ++ q).Nodup →
      (∀ e ∈ m, e.2 = taskResult mR mD attemptOf e.1) →
      q.length + m.length ≤ fuel →
      (runLoop C mR mD tEnd attemptOf fuel q m s).yields
        = (m.map Prod.fst ++ q).filterMap (yieldOf mR mD attemptOf) := by
  intro fuel
  induction fuel with
  | zero =>
    intro q m s _ _ hfuel
    have hq : q = [] := List.length_eq_zero.mp (by omega)
    have hm : m = [] := List.length_eq_zero.mp (by omega)
    subst hq
    subst hm
    rfl
  | succ fuel ih =>
    intro q m s hnd hval hfuel
    by_cases hqm : (q.isEmpty && m.isEmpty) = true
    · have hq : q = [] := List.isEmpty_iff.mp ((Bool.and_eq_true _ _).mp hqm).1
      have hm : m = [] := List.isEmpty_iff.mp ((Bool.and_eq_true _ _).mp hqm).2
      subst hq
      subst hm
      rw [runLoop_succ_empty hqm]
      rfl
    · have hkeys := fillLoop_keys_nodup C mR mD attemptOf q m s hnd
      have hvals := fillLoop_values C mR mD attemptOf q m s hval
      have hne := fillLoop_inflight_ne_nil_of_state C mR mD attemptOf hC s hqm
      rcases hfi : (fillLoop C mR mD attemptOf q m s).inflight with _ | ⟨⟨p, res⟩, rest⟩
      · exact absurd hfi hne
      have hres : res = taskResult mR mD attemptOf p :=
        hvals (p, res) (by rw [hfi]; exact List.mem_cons_self _ _)
      have hlen : (fillLoop C mR mD attemptOf q m s).inflight.length
          + (fillLoop C mR mD attemptOf q m s).queue.length = m.length + q.length := by
        have hcl := congrArg List.length hkeys
        simpa [List.length_append] using hcl
      have hnd2 : ((fillLoop C mR mD attemptOf q m s).inflight.map Prod.fst
          ++ (fillLoop C mR mD attemptOf q m s).queue).Nodup := by
        rw [hkeys]
        exact hnd
      have hndrest : (rest.map Prod.fst ++ (fillLoop C mR mD attemptOf q m s).queue).Nodup := by
        rw [hfi] at hnd2
        exact (List.nodup_cons.mp hnd2).2
      have hvalrest : ∀ e ∈ rest, e.2 = taskResult mR mD attemptOf e.1 := by
        intro e he
        exact hvals e (by rw [hfi]; exact List.mem_cons_of_mem _ he)
      have hfuelrest : (fillLoop C mR mD attemptOf q m s).queue.length + rest.length ≤ fuel := by
        rw [hfi] at hlen
        simp only [List.length_cons] at hlen
        have hq0 : q.length + m.length ≠ 0 := by
          intro h0
          have hq : q = [] := List.length_eq_zero.mp (by omega)
          have hm : m = [] := List.length_eq_zero.mp (by omega)
          exact hqm (by simp [hq, hm])
        omega
      have hrec := ih (fillLoop C mR mD attemptOf q m s).queue rest
        (fillLoop C mR mD attemptOf q m s).stats hndrest hvalrest hfuelrest
      have hfm : (m.map Prod.fst ++ q).filterMap (yieldOf mR mD attemptOf)
          = ((fillLoop C mR mD attemptOf q m s).inflight.map Prod.fst
              ++ (fillLoop C mR mD attemptOf q m s).queue).filterMap
            (yieldOf mR mD attemptOf) := by
        rw [hkeys]
      cases htask : taskResult mR mD attemptOf p with
      | ok c =>
        have hfi2 : (fillLoop C mR mD attemptOf q m s).inflight = (p, .ok c) :: rest := by
          rw [hfi, hres, htask]
        rw [runLoop_succ_cons_ok hqm hfi2, hrec, hfm, hfi2]
        simp only [List.map_cons, List.cons_append, List.filterMap_cons]
        simp [yieldOf, htask]
      | error e =>
        have hfi2 : (fillLoop C mR mD attemptOf q m s).inflight = (p, .error e) :: rest := by
          rw [hfi, hres, htask]
        rw [runLoop_succ_cons_error hqm hfi2, hrec, hfm, hfi2]
        simp only [List.map_cons, List.cons_append, List.filterMap_cons]
        simp [yieldOf, htask]

/-- Order preservation without any distinctness assumption: the paths yielded
by the generator form a sublist (same relative order) of the scheduled paths. -/
theorem runLoop_yields_sublist (C mR mD tEnd : Nat)
    (attemptOf : List Char → Nat → AttemptSpec) (hC : 1 ≤ C) :
    ∀ (fuel : Nat) (q : List (List Char)) (m : List (List Char × Task)) (s : Stats),
      (∀ e ∈ m, e.2 = taskResult mR mD attemptOf e.1) →
      q.length + m.length ≤ fuel →
      ((runLoop C mR mD tEnd attemptOf fuel q m s).yields.map Prod.fst).Sublist
        (m.map Prod.fst ++ q) := by
  intro fuel
  induction fuel with
  | zero =>
    intro q m s _ hfuel
    have hq : q = [] := List.length_eq_zero.mp (by omega)
    have hm : m = [] := List.length_eq_zero.mp (by omega)
    subst hq
    subst hm
    simp [runLoop]
  | succ fuel ih =>
    intro q m s hval hfuel
    by_cases hqm : (q.isEmpty && m.isEmpty) = true
    · rw [runLoop_succ_empty hqm]
      simp
    · have hsubfill := fillLoop_keys_sublist C mR mD attemptOf q m s hval
      have hvals := fillLoop_values C mR mD attemptOf q m s hval
      have hne := fillLoop_inflight_ne_nil_of_state C mR mD attemptOf hC s hqm
      rcases hfi : (fillLoop C mR mD attemptOf q m s).inflight with _ | ⟨⟨p, res⟩, rest⟩
      · exact absurd hfi hne
      have hres : res = taskResult mR mD attemptOf p :=
        hvals (p, res) (by rw [hfi]; exact List.mem_cons_self _ _)
      have hlenle : (fillLoop C mR mD attemptOf q m s).inflight.length
          + (fillLoop C mR mD attemptOf q m s).queue.length ≤ m.length + q.length := by
        have hl := hsubfill.length_le
        simpa [List.length_append] using hl
      have hfuelrest : (fillLoop C mR mD attemptOf q m s).queue.length + rest.length ≤ fuel := by
        rw [hfi] at hlenle
        simp only [List.length_cons] at hlenle
        omega
      have hvalrest : ∀ e ∈ rest, e.2 = taskResult mR mD attemptOf e.1 := by
        intro e he
        exact hvals e (by rw [hfi]; exact List.mem_cons_of_mem _ he)
      have hrec := ih (fillLoop C mR mD attemptOf q m s).queue rest
        (fillLoop C mR mD attemptOf q m s).stats hvalrest hfuelrest
      have hstep : (((p, res) :: rest).map Prod.fst
          ++ (fillLoop C mR mD attemptOf q m s).queue).Sublist (m.map Prod.fst ++ q) := by
        rw [← hfi]
        exact hsubfill
      simp only [List.map_cons, List.cons_append] at hstep
      cases res with
      | ok c =>
        rw [runLoop_succ_cons_ok hqm hfi]
        refine List.Sublist.trans ?_ hstep
        simp only [List.map_cons]
        exact List.Sublist.cons₂ p hrec
      | error e =>
        rw [runLoop_succ_cons_error hqm hfi]
        refine List.Sublist.trans ?_ hstep
        exact List.Sublist.cons p hrec

/-- Cap invariant: starting within the cap, every recorded in-flight size over
the whole run stays within the cap. -/
theorem runLoop_sizes (C mR mD tEnd : Nat) (attemptOf : List Char → Nat → AttemptSpec) :
    ∀ (fuel : Nat) (q : List (List Char)) (m : List (List Char × Task)) (s : Stats),
      m.length ≤ C →
      ∀ n ∈ (runLoop C mR mD tEnd attemptOf fuel q m s).sizes, n ≤ C := by
  intro fuel
  induction fuel with
  | zero =>
    intro q m s _ n hn
    simp [runLoop] at hn
  | succ fuel ih =>
    intro q m s hm n hn
    by_cases hqm : (q.isEmpty && m.isEmpty) = true
    · rw [runLoop_succ_empty hqm] at hn
      simp at hn
    · have hsz := fillLoop_sizes_le C mR mD attemptOf q m s hm
      rcases hfi : (fillLoop C mR mD attemptOf q m s).inflight with _ | ⟨⟨p, res⟩, rest⟩
      · rw [runLoop_succ_nil hqm hfi] at hn
        rcases List.mem_append.mp hn with h1 | h2
        · exact hsz.1 n h1
        · exact ih (fillLoop C mR mD attemptOf q m s).queue []
            (fillLoop C mR mD attemptOf q m s).stats (by simp) n h2
      · have hrest : rest.length ≤ C := by
          have hl := hsz.2
          rw [hfi] at hl
          simp only [List.length_cons] at hl
          omega
        cases res with
        | ok c =>
          rw [runLoop_succ_cons_ok hqm hfi] at hn
          rcases List.mem_append.mp hn with h1 | h2
          · exact hsz.1 n h1
          · rcases List.mem_cons.mp h2 with h3 | h4
            · omega
            · exact ih (fillLoop C mR mD attemptOf q m s).queue rest
                (fillLoop C mR mD attemptOf q m s).stats hrest n h4
        | error e =>
          rw [runLoop_succ_cons_error hqm hfi] at hn
          rcases List.mem_append.mp hn with h1 | h2
          · exact hsz.1 n h1
          · rcases List.mem_cons.mp h2 with h3 | h4
            · omega
            · exact ih (fillLoop C mR mD attemptOf q m s).queue rest
                (fillLoop C mR mD attemptOf q m s).stats hrest n h4

/-- Cleanliness of a whole run: `skipped` and `totalSize` stay zero in the
final stats and in every snapshot, and no `skip` event is ever posted. -/
theorem runLoop_clean (C mR mD tEnd : Nat) (attemptOf : List Char → Nat → AttemptSpec) :
    ∀ (fuel : Nat) (q : List (List Char)) (m : List (List Char × Task)) (s : Stats),
      s.skipped = 0 → s.totalSize = 0 →
      ((runLoop C mR mD tEnd attemptOf fuel q m s).stats.skipped = 0
        ∧ (runLoop C mR mD tEnd attemptOf fuel q m s).stats.totalSize = 0)
      ∧ (∀ x ∈ (runLoop C mR mD tEnd attemptOf fuel q m s).statsTr,
          x.skipped = 0 ∧ x.totalSize = 0)
      ∧ (∀ u ∈ (runLoop C mR mD tEnd attemptOf fuel q m s).events, u.type ≠ .skip) := by
  intro fuel
  induction fuel with
  | zero =>
    intro q m s h1 h2
    exact ⟨⟨h1, h2⟩, by simp [runLoop], by simp [runLoop]⟩
  | succ fuel ih =>
    intro q m s h1 h2
    by_cases hqm : (q.isEmpty && m.isEmpty) = true
    · rw [runLoop_succ_empty hqm]
      exact ⟨⟨h1, h2⟩, by simp, by simp⟩
    · have hfc := fillLoop_clean C mR mD attemptOf q m s h1 h2
      rcases hfi : (fillLoop C mR mD attemptOf q m s).inflight with _ | ⟨⟨p, res⟩, rest⟩
      · have hrec := ih (fillLoop C mR mD attemptOf q m s).queue []
          (fillLoop C mR mD attemptOf q m s).stats hfc.1.1 hfc.1.2
        rw [runLoop_succ_nil hqm hfi]
        refine ⟨hrec.1, ?_, ?_⟩
        · intro x hx
          rcases List.mem_append.mp hx with ha | hb
          · exact hfc.2.1 x ha
          · exact hrec.2.1 x hb
        · intro u hu
          rcases List.mem_append.mp hu with ha | hb
          · exact hfc.2.2 u ha
          · exact hrec.2.2 u hb
      · have hrec := ih (fillLoop C mR mD attemptOf q m s).queue rest
          (fillLoop C mR mD attemptOf q m s).stats hfc.1.1 hfc.1.2
        cases res with
        | ok c =>
          rw [runLoop_succ_cons_ok hqm hfi]
          refine ⟨hrec.1, ?_, ?_⟩
          · intro x hx
            rcases List.mem_append.mp hx with ha | hb
            · exact hfc.2.1 x ha
            · exact hrec.2.1 x hb
          · intro u hu
            rcases List.mem_append.mp hu with ha | hb
            · exact hfc.2.2 u ha
            · exact hrec.2.2 u hb
        | error e =>
          rw [runLoop_succ_cons_error hqm hfi]
          refine ⟨hrec.1, ?_, ?_⟩
          · intro x hx
            rcases List.mem_append.mp hx with ha | hb
            · exact hfc.2.1 x ha
            · exact hrec.2.1 x hb
          · intro u hu
            rcases List.mem_append.mp hu with ha | hb
            · exact hfc.2.2 u ha
            · exact hrec.2.2 u hb

/-! ## Claim C1 — outcome sequence contents (corrected) -/

/-- Claim C1, counterexample: a single input path whose every attempt fails is
SILENTLY OMITTED from the outcome sequence. The generator catches the
`FileError` thrown by the pipeline and yields nothing for that path
(processor.ts:285-288, "Error already handled"), so the run yields zero
outcomes for one input path, where the claim demands one `FileError` outcome. -/
theorem claimC1counterexample :
    (processFiles 1 0 5 (fun _ _ => .valFail ['m']) [['a']] 0 9).yields = [] := rfl

/-- Claim C1, amended: for pairwise-distinct input paths, the outcome sequence
contains exactly one success entry `(path, content)` per input path whose
pipeline succeeds, in input order; a path that exhausts all retries
contributes NOTHING to the outcome sequence (its `FileError` is reported only
through the error event and the `failed` counter), rather than appearing as an
in-band `FileError` value. -/
theorem claimC1amended (C mR mD : Nat) (attemptOf : List Char → Nat → AttemptSpec)
    (files : List (List Char)) (t0 tEnd : Nat) (hC : 1 ≤ C) (hnd : files.Nodup) :
    (processFiles C mR mD attemptOf files t0 tEnd).yields
      = files.filterMap (yieldOf mR mD attemptOf) := by
  have h := runLoop_yields_nodup C mR mD tEnd attemptOf hC (files.length + 1)
    files [] (initStats t0) (by simpa using hnd) (by simp) (by simp)
  simpa [processFiles] using h

/-- Witness for C1-amended: two distinct succeeding paths yield two results in
input order. -/
theorem claimC1amendedWitness :
    (processFiles 1 0 5 (fun p _ => .ok ('c' :: p) 0) [['a'], ['b']] 0 9).yields
      = [(['a'], ['c', 'a']), (['b'], ['c', 'b'])] := by
  have h := claimC1amended 1 0 5 (fun p _ => .ok ('c' :: p) 0) [['a'], ['b']] 0 9
    (by decide) (by decide)
  rw [h]
  rfl

/-! ## Claim C2 — output order equals input order (confirmed) -/

theorem filterMap_yieldOf_all_ok (mR mD : Nat) (attemptOf : List Char → Nat → AttemptSpec) :
    ∀ l : List (List Char),
      (∀ p ∈ l, ∃ c, taskResult mR mD attemptOf p = .ok c) →
      (l.filterMap (yieldOf mR mD attemptOf)).map Prod.fst = l := by
  intro l
  induction l with
  | nil =>
    intro _
    rfl
  | cons p l ih =>
    intro h
    rcases h p (List.mem_cons_self p l) with ⟨c, hc⟩
    rw [List.filterMap_cons]
    simp only [yieldOf, hc]
    simp [ih (fun x hx => h x (List.mem_cons_of_mem p hx))]

/-- Claim C2: the generator always awaits the OLDEST still-in-flight entry
(`[...inProgress.entries()][0]`, the first entry of an insertion-ordered JS
Map), so yields come in input (submission) order. The source never races
promises — the awaited value is the settled value of that one promise — so
per-file completion delays are unobservable, and the theorem quantifies over
every per-path outcome oracle instead of over delay assignments: (1) the
yielded paths always form a sublist of the input list (relative order
preserved: a fast file submitted later is never yielded before a slower file
submitted earlier); (2) for distinct paths that all succeed, the yielded path
sequence IS the input list. -/
theorem claimC2order (C mR mD : Nat) (attemptOf : List Char → Nat → AttemptSpec)
    (files : List (List Char)) (t0 tEnd : Nat) (hC : 1 ≤ C) :
    ((processFiles C mR mD attemptOf files t0 tEnd).yields.map Prod.fst).Sublist files
    ∧ (files.Nodup →
        (∀ p ∈ files, ∃ c, taskResult mR mD attemptOf p = .ok c) →
        (processFiles C mR mD attemptOf files t0 tEnd).yields.map Prod.fst = files) := by
  constructor
  · have h := runLoop_yields_sublist C mR mD tEnd attemptOf hC (files.length + 1)
      files [] (initStats t0) (by simp) (by simp)
    simpa [processFiles] using h
  · intro hnd hok
    have h := runLoop_yields_nodup C mR mD tEnd attemptOf hC (files.length + 1)
      files [] (initStats t0) (by simpa using hnd) (by simp) (by simp)
    have h2 : (processFiles C mR mD attemptOf files t0 tEnd).yields
        = files.filterMap (yieldOf mR mD attemptOf) := by
      simpa [processFiles] using h
    rw [h2]
    exact filterMap_yieldOf_all_ok mR mD attemptOf files hok

/-- Witness for C2 at concrete runs: a failing middle file keeps order (its
yield is just missing), and an all-success run yields the whole input order. -/
theorem claimC2orderWitness :
    ((processFiles 2 0 5
        (fun p _ => if p = ['b'] then .valFail ['m'] else .ok ('c' :: p) 0)
        [['a'], ['b'], ['c']] 0 9).yields.map Prod.fst).Sublist [['a'], ['b'], ['c']]
    ∧ (processFiles 1 0 5 (fun p _ => .ok ('c' :: p) 0)
        [['a'], ['b']] 0 9).yields.map Prod.fst = [['a'], ['b']] :=
  ⟨(claimC2order 2 0 5
      (fun p _ => if p = ['b'] then .valFail ['m'] else .ok ('c' :: p) 0)
      [['a'], ['b'], ['c']] 0 9 (by decide)).1,
   (claimC2order 1 0 5 (fun p _ => .ok ('c' :: p) 0) [['a'], ['b']] 0 9
      (by decide)).2 (by decide) (fun p _ => ⟨'c' :: p, rfl⟩)⟩

/-! ## Claim C5 — bounded concurrency (confirmed) -/

/-- Claim C5: (1) over a whole `processFiles` run the recorded in-flight count
— after every pipeline start and after every completion-removal — never
exceeds the cap `C`; (2) the refill loop, entered whenever a task completes,
keeps starting new per-file pipelines and stops only when the pending queue is
drained or the in-flight count is back at exactly `C`. -/
theorem claimC5bounded (C mR mD : Nat) (attemptOf : List Char → Nat → AttemptSpec)
    (files : List (List Char)) (t0 tEnd : Nat) (hC : 1 ≤ C) :
    (∀ n ∈ (processFiles C mR mD attemptOf files t0 tEnd).sizes, n ≤ C)
    ∧ (∀ (q : List (List Char)) (m : List (List Char × Task)) (s : Stats),
        m.length ≤ C →
        (fillLoop C mR mD attemptOf q m s).queue = []
        ∨ (fillLoop C mR mD attemptOf q m s).inflight.length = C) := by
  constructor
  · intro n hn
    exact runLoop_sizes C mR mD tEnd attemptOf (files.length + 1) files []
      (initStats t0) (by simp) n hn
  · intro q m s hm
    exact fillLoop_refill C mR mD attemptOf q m s hm

/-- Witness for C5 at `C = 2` with three files: all recorded sizes are within
the cap, and a concrete refill ends at the cap or with an empty queue. -/
theorem claimC5boundedWitness :
    ((processFiles 2 0 5 (fun p _ => .ok ('c' :: p) 0) [['a'], ['b'], ['c']] 0 9).sizes.all
      (fun n => decide (n ≤ 2)) = true)
    ∧ ((fillLoop 2 0 5 (fun p _ => .ok ('c' :: p) 0) [['a']] [] (initStats 0)).queue = []
        ∨ (fillLoop 2 0 5 (fun p _ => .ok ('c' :: p) 0) [['a']] []
            (initStats 0)).inflight.length = 2) := by
  have h := claimC5bounded 2 0 5 (fun p _ => .ok ('c' :: p) 0) [['a'], ['b'], ['c']] 0 9
    (by decide)
  refine ⟨?_, h.2 [['a']] [] (initStats 0) (by decide)⟩
  apply List.all_eq_true.mpr
  intro n hn
  exact decide_eq_true (h.1 n hn)

/-! ## Claim C10 — `skipped`/`totalSize` stay zero, no skip events (confirmed) -/

/-- Claim C10: across any whole `processFiles` run, the stats fields `skipped`
and `totalSize` are 0 at initialization, remain 0 in every snapshot taken
after a stats mutation, and are 0 in the final stats; no lifecycle event of
type `skip` is ever posted; and a file whose every attempt dies in validation
(the too-large case) is routed through the failure path — exactly one
`failed++` mutation and one `error` event. -/
theorem claimC10stats (C mR mD : Nat) (attemptOf : List Char → Nat → AttemptSpec)
    (files : List (List Char)) (t0 tEnd : Nat) :
    ((initStats t0).skipped = 0 ∧ (initStats t0).totalSize = 0)
    ∧ ((processFiles C mR mD attemptOf files t0 tEnd).stats.skipped = 0
        ∧ (processFiles C mR mD attemptOf files t0 tEnd).stats.totalSize = 0)
    ∧ (∀ x ∈ (processFiles C mR mD attemptOf files t0 tEnd).statsTr,
        x.skipped = 0 ∧ x.totalSize = 0)
    ∧ (∀ u ∈ (processFiles C mR mD attemptOf files t0 tEnd).events, u.type ≠ .skip)
    ∧ (∀ p msg : List Char,
        (processFileWithRetry mR mD (fun _ _ => .valFail msg) p).statUpdates = [incFailed]
        ∧ (processFileWithRetry mR mD (fun _ _ => .valFail msg) p).events
            = [⟨.error, p⟩]) := by
  have h := runLoop_clean C mR mD tEnd attemptOf (files.length + 1) files []
    (initStats t0) rfl rfl
  exact ⟨⟨rfl, rfl⟩, h.1, h.2.1, h.2.2,
    fun p msg => retryLoop_all_valFail mR mD msg p (mR + 1) 0 unknownErrMsg⟩

/-- Witness for C10 at a concrete all-failing run. -/
theorem claimC10statsWitness :
    ((processFiles 2 1 5 (fun _ _ => .valFail ['m']) [['a'], ['b']] 0 9).events.all
      (fun u => u.type != .skip) = true)
    ∧ (processFiles 2 1 5 (fun _ _ => .valFail ['m']) [['a'], ['b']] 0 9).stats.skipped = 0
    ∧ (processFileWithRetry 1 5 (fun _ _ => .valFail ['m']) ['a']).statUpdates
        = [incFailed] := by
  have h := claimC10stats 2 1 5 (fun _ _ => .valFail ['m']) [['a'], ['b']] 0 9
  refine ⟨?_, h.2.1.1, (h.2.2.2.2 ['a'] ['m']).1⟩
  apply List.all_eq_true.mpr
  intro u hu
  exact bne_iff_ne.mpr (h.2.2.2.1 u hu)

end CodeAnalyzer
